import Mathlib

/-!
# Verification of the PVSS core of pschlump/kyber

A shallow embedding of the PVSS (publicly verifiable secret sharing)
package, the `key` package, the edwards25519 suite's `NewKey`, and the
ElGamal example of the repository.

The group contract (spec §6.1) is embedded as follows: the scalar field of
prime order `q` is `ZMod q`; the point group is an additive commutative
group `Pt` that is a `ZMod q`-module; `suite.Point().Mul(P, x)` is `x • P`;
the suite's base point `G` and the sharing base `H` are explicit
parameters.  Injected randomness (`random.Stream`) is passed as explicit
scalar streams `ℕ → ZMod q`, and the Fiat–Shamir hash-to-scalar is an
explicit function parameter `Pt → Pt → ZMod q`.

Code of the repository that is not part of the given sources (the
`share` polynomial engine and the `proof` DLEQ package, which `pvss.go`
calls) is modelled from the spec; those definitions say so in their doc
comments.  Everything else is translated from the Go sources.
-/

/-- The error taxonomy of `pvss.go` (lines 41-44). -/
inductive PvssError where
  | TooFewShares
  | DifferentLengths
  | EncVerification
  | DecVerification
deriving DecidableEq, Repr

/-- `share.PubShare`: an index paired with a public point
(`PubShare` of the `share` package; spec §3). -/
structure PubShare (Pt : Type) where
  I : ℕ
  V : Pt
deriving DecidableEq

/-- Modelled from the spec: `proof.DLEQProof` is a quadruple
`(C, R, VG, VH)` of two scalars and the two prover-committed points
(spec §3; the `proof` package is not among the given sources). -/
structure DLEQProof (q : ℕ) (Pt : Type) where
  C : ZMod q
  R : ZMod q
  VG : Pt
  VH : Pt
deriving DecidableEq

/-- `pvss.PubVerShare`: a public share together with its DLEQ proof
(`pvss.go` lines 46-50). -/
structure PubVerShare (q : ℕ) (Pt : Type) where
  S : PubShare Pt
  P : DLEQProof q Pt
deriving DecidableEq

section PVSS

variable {q : ℕ} {Pt : Type} [AddCommGroup Pt] [Module (ZMod q) Pt]

/-- Modelled from the spec: `proof.NewDLEQProof(suite, G, H, x)` with
ephemeral scalar `v` drawn from the injected stream (spec §4.2): commit
`vG = v·G`, `vH = v·H`, challenge `c = hash(vG, vH)`, response
`r = v - c·x`; it returns the proof `(c, r, vG, vH)` alongside the DH
points `xG` and `xH`. -/
def NewDLEQProof (hash : Pt → Pt → ZMod q) (G H : Pt) (x v : ZMod q) :
    DLEQProof q Pt × Pt × Pt :=
  let vG := v • G
  let vH := v • H
  let c := hash vG vH
  let r := v - c * x
  (⟨c, r, vG, vH⟩, x • G, x • H)

/-- Modelled from the spec: `proof.DLEQProof.Verify(suite, G, H, A, B)`
(spec §4.2): recompute `vG' = r·G + c·A` and `vH' = r·H + c·B` and accept
iff `hash(vG', vH') = c`. -/
def dleqVerify (hash : Pt → Pt → ZMod q) (G H A B : Pt)
    (pr : DLEQProof q Pt) : Bool :=
  let vG := pr.R • G + pr.C • A
  let vH := pr.R • H + pr.C • B
  decide (hash vG vH = pr.C)

/-- Modelled from the spec: `proof.NewDLEQProofBatch(suite, G, H, x)`
(spec §4.2): one independent proof per index, with per-index ephemerals
from the injected stream; fails with `DifferentLengths` when the input
vectors disagree in length. -/
def NewDLEQProofBatch (hash : Pt → Pt → ZMod q) (Gs Hs : List Pt)
    (xs : List (ZMod q)) (eph : ℕ → ZMod q) :
    Except PvssError (List (DLEQProof q Pt) × List Pt × List Pt) :=
  if Gs.length = Hs.length ∧ Hs.length = xs.length then
    let trip := (Gs.zip (Hs.zip xs)).enum.map
      (fun e => NewDLEQProof hash e.2.1 e.2.2.1 e.2.2.2 (eph e.1))
    .ok (trip.map (·.1), trip.map (·.2.1), trip.map (·.2.2))
  else
    .error .DifferentLengths

/-- Modelled from the spec: evaluation of a private polynomial with
coefficient list `cs` (low order first) by Horner's rule (spec §4.1). -/
def priPolyEval (cs : List (ZMod q)) (z : ZMod q) : ZMod q :=
  cs.foldr (fun c acc => acc * z + c) 0

/-- The polynomial with coefficient list `cs` (low order first): a
proof-side object (not part of the embedded code) relating
`priPolyEval` to Mathlib polynomial evaluation. -/
noncomputable def hornerPoly (cs : List (ZMod q)) : Polynomial (ZMod q) :=
  cs.foldr (fun c acc => acc * Polynomial.X + Polynomial.C c) 0

/-- Modelled from the spec: `share.NewPriPoly(group, t, s, rand)` draws
`c[0] = s` and `c[1..t-1]` from the stream (spec §4.1). -/
def NewPriPoly (t : ℕ) (s : ZMod q) (rand : ℕ → ZMod q) : List (ZMod q) :=
  s :: (List.range (t - 1)).map rand

/-- Modelled from the spec: `PriPoly.Shares(n)` returns the private
shares `[(1, p(1)), …, (n, p(n))]` (spec §4.1). -/
def priPolyShares (cs : List (ZMod q)) (n : ℕ) : List (PubShare (ZMod q)) :=
  (List.range n).map (fun k => ⟨k + 1, priPolyEval cs ((k : ZMod q) + 1)⟩)

/-- Modelled from the spec: `PriPoly.Commit(B)` commits each coefficient
under the base `B` (spec §4.1).  A `PubPoly` is the base point together
with the commitment vector. -/
def priPolyCommit (cs : List (ZMod q)) (B : Pt) : Pt × List Pt :=
  (B, cs.map (fun c => c • B))

/-- Modelled from the spec: `PubPoly.Eval(i)` by Horner's rule in the
group (spec §4.1). -/
def pubPolyEval (pp : Pt × List Pt) (i : ℕ) : PubShare Pt :=
  ⟨i, pp.2.foldr (fun Cj acc => (i : ZMod q) • acc + Cj) 0⟩

/-- Keep-first deduplication by share index (spec §4.1 tie-break rule);
`seen` is the list of indices already kept. -/
def dedupByIndexGo : List (PubShare Pt) → List ℕ → List (PubShare Pt)
  | [], _ => []
  | s :: rest, seen =>
    if s.I ∈ seen then dedupByIndexGo rest seen
    else s :: dedupByIndexGo rest (s.I :: seen)

/-- Keep-first deduplication of shares by index. -/
def dedupByIndex (l : List (PubShare Pt)) : List (PubShare Pt) :=
  dedupByIndexGo l []

/-- The Lagrange coefficient at `x = 0` for node `xi` against the other
nodes of `xs`: `∏_{xj ≠ xi} (-xj) · (xi - xj)⁻¹` (spec §4.1). -/
def lagrangeCoeff (xs : List ℕ) (xi : ℕ) : ZMod q :=
  ((xs.filter (fun xj => xj ≠ xi)).map
    (fun xj : ℕ => (-(xj : ZMod q)) * ((xi : ZMod q) - (xj : ZMod q))⁻¹)).prod

/-- Modelled from the spec: `share.RecoverCommit(suite, shares, t, n)`
(spec §4.1): deduplicate by index keeping the first, take the first `t`
shares, fail with `TooFewShares` when fewer than `t` distinct indices are
available, and otherwise return `Σ λ_i · V_i` with Lagrange coefficients
at `x = 0`. -/
def RecoverCommit (shares : List (PubShare Pt)) (t : ℕ) (_n : ℕ) :
    Except PvssError Pt :=
  let d := (dedupByIndex shares).take t
  if d.length < t then .error .TooFewShares
  else
    let xs := d.map (·.I)
    .ok (d.map (fun sh => (lagrangeCoeff xs sh.I : ZMod q) • sh.V)).sum

/-- `pvss.VerifyEncShare(suite, H, X, sH, encShare)` (`pvss.go` lines
96-101): verify the encryption consistency proof with bases `(H, X)` and
points `(sH, encShare.S.V)`; a failing proof becomes `EncVerification`. -/
def VerifyEncShare (hash : Pt → Pt → ZMod q) (H X sH : Pt)
    (encShare : PubVerShare q Pt) : Option PvssError :=
  if dleqVerify hash H X sH encShare.S.V encShare.P then none
  else some .EncVerification

/-- The filtering loop of `pvss.VerifyEncShareBatch` (`pvss.go` lines
110-117) over the zipped inputs: keep the public key and encrypted share
of every index whose single-share verification succeeds. -/
def verifyEncFilter (hash : Pt → Pt → ZMod q) (H : Pt) :
    List (Pt × Pt × PubVerShare q Pt) → List Pt × List (PubVerShare q Pt)
  | [] => ([], [])
  | (x, sh, e) :: rest =>
    let r := verifyEncFilter hash H rest
    if VerifyEncShare hash H x sh e = none then (x :: r.1, e :: r.2) else r

/-- `pvss.VerifyEncShareBatch(suite, H, X, sH, encShares)` (`pvss.go`
lines 106-119): reject mismatched lengths with `DifferentLengths` and nil
slices, otherwise filter to the valid (key, share) pairs.  The Go triple
`(K, E, err)` is returned as a tuple. -/
def VerifyEncShareBatch (hash : Pt → Pt → ZMod q) (H : Pt) (X sH : List Pt)
    (encShares : List (PubVerShare q Pt)) :
    List Pt × List (PubVerShare q Pt) × Option PvssError :=
  if X.length = sH.length ∧ sH.length = encShares.length then
    let r := verifyEncFilter hash H (X.zip (sH.zip encShares))
    (r.1, r.2, none)
  else ([], [], some .DifferentLengths)

/-- `pvss.DecShare(suite, H, X, sH, x, encShare)` (`pvss.go` lines
124-136): verify the encryption proof first and propagate its error;
otherwise decrypt `V = x⁻¹ · S`, and prove `log_G(X) = log_V(S)` with
`NewDLEQProof(suite, G, V, x)` using the suite's base `G` and an
ephemeral `w` from the stream. -/
def DecShare (hash : Pt → Pt → ZMod q) (G H X sH : Pt) (x : ZMod q)
    (encShare : PubVerShare q Pt) (w : ZMod q) :
    Except PvssError (PubVerShare q Pt) :=
  match VerifyEncShare hash H X sH encShare with
  | some e => .error e
  | none =>
    let V := x⁻¹ • encShare.S.V
    let ps : PubShare Pt := ⟨encShare.S.I, V⟩
    let pr := NewDLEQProof hash G V x w
    .ok ⟨ps, pr.1⟩

/-- The filtering loop of `pvss.DecShareBatch` (`pvss.go` lines 145-154)
over the zipped and position-numbered inputs: keep the public key, the
encrypted share and the decrypted share of every index where `DecShare`
succeeds; the position selects the ephemeral drawn from the stream. -/
def decShareFilter (hash : Pt → Pt → ZMod q) (G H : Pt) (x : ZMod q)
    (w : ℕ → ZMod q) :
    List (ℕ × Pt × Pt × PubVerShare q Pt) →
      List Pt × List (PubVerShare q Pt) × List (PubVerShare q Pt)
  | [] => ([], [], [])
  | (i, xi, sh, e) :: rest =>
    let r := decShareFilter hash G H x w rest
    match DecShare hash G H xi sh x e (w i) with
    | .ok ds => (xi :: r.1, e :: r.2.1, ds :: r.2.2)
    | .error _ => r

/-- `pvss.DecShareBatch(suite, H, X, sH, x, encShares)` (`pvss.go` lines
141-156): reject mismatched lengths with `DifferentLengths` and nil
slices, otherwise filter to the valid (key, encrypted, decrypted)
triples. -/
def DecShareBatch (hash : Pt → Pt → ZMod q) (G H : Pt) (X sH : List Pt)
    (x : ZMod q) (encShares : List (PubVerShare q Pt)) (w : ℕ → ZMod q) :
    List Pt × List (PubVerShare q Pt) × List (PubVerShare q Pt) ×
      Option PvssError :=
  if X.length = sH.length ∧ sH.length = encShares.length then
    let r := decShareFilter hash G H x w ((X.zip (sH.zip encShares)).enum)
    (r.1, r.2.1, r.2.2, none)
  else ([], [], [], some .DifferentLengths)

/-- `pvss.VerifyDecShare(suite, G, X, encShare, decShare)` (`pvss.go`
lines 160-165): verify the decryption consistency proof by the call
`decShare.P.Verify(suite, G, decShare.S.V, X, encShare.S.V)`; a failing
proof becomes `DecVerification`. -/
def VerifyDecShare (hash : Pt → Pt → ZMod q) (G X : Pt)
    (encShare decShare : PubVerShare q Pt) : Option PvssError :=
  if dleqVerify hash G decShare.S.V X encShare.S.V decShare.P then none
  else some .DecVerification

/-- The filtering loop of `pvss.VerifyDecShareBatch` (`pvss.go` lines
173-178) over the zipped inputs: keep the decrypted share of every index
whose single-share verification succeeds. -/
def verifyDecFilter (hash : Pt → Pt → ZMod q) (G : Pt) :
    List (Pt × PubVerShare q Pt × PubVerShare q Pt) →
      List (PubVerShare q Pt)
  | [] => []
  | (x, e, d) :: rest =>
    let r := verifyDecFilter hash G rest
    if VerifyDecShare hash G x e d = none then d :: r else r

/-- `pvss.VerifyDecShareBatch(suite, G, X, encShares, decShares)`
(`pvss.go` lines 169-180): reject mismatched lengths with
`DifferentLengths` and a nil slice, otherwise filter to the valid
decrypted shares. -/
def VerifyDecShareBatch (hash : Pt → Pt → ZMod q) (G : Pt) (X : List Pt)
    (encShares decShares : List (PubVerShare q Pt)) :
    List (PubVerShare q Pt) × Option PvssError :=
  if X.length = encShares.length ∧ encShares.length = decShares.length then
    (verifyDecFilter hash G (X.zip (encShares.zip decShares)), none)
  else ([], some .DifferentLengths)

/-- `pvss.RecoverSecret(suite, G, X, encShares, decShares, t, n)`
(`pvss.go` lines 184-197): verify the decrypted shares in a batch,
propagate `DifferentLengths`, fail with `TooFewShares` when fewer than `t`
survive, and otherwise recover the secret point from the surviving
shares. -/
def RecoverSecret (hash : Pt → Pt → ZMod q) (G : Pt) (X : List Pt)
    (encShares decShares : List (PubVerShare q Pt)) (t n : ℕ) :
    Except PvssError Pt :=
  match VerifyDecShareBatch hash G X encShares decShares with
  | (_, some e) => .error e
  | (D, none) =>
    if D.length < t then .error .TooFewShares
    else RecoverCommit (q := q) (D.map (·.S)) t n

/-- `pvss.EncShares(suite, H, X, secret, t)` (`pvss.go` lines 56-91):
build the secret polynomial (coefficients from `coeffRand`), its `n`
private shares and the commitment polynomial under `H`; produce one DLEQ
proof per trustee over bases `(H, X_i)` with ephemerals from `ephRand`;
return the encrypted shares `(i, p(i)·X_i)` with their proofs, and the
commitment polynomial. -/
def EncShares (hash : Pt → Pt → ZMod q) (H : Pt) (X : List Pt)
    (secret : ZMod q) (t : ℕ) (coeffRand ephRand : ℕ → ZMod q) :
    Except PvssError (List (PubVerShare q Pt) × (Pt × List Pt)) :=
  let n := X.length
  let priPoly := NewPriPoly t secret coeffRand
  let priShares := priPolyShares priPoly n
  let pubPoly := priPolyCommit priPoly H
  let indices := priShares.map (·.I)
  let values := priShares.map (·.V)
  let HS := List.replicate n H
  match NewDLEQProofBatch hash HS X values ephRand with
  | .error e => .error e
  | .ok (proofs, _sG, sX) =>
    .ok ((indices.zip (sX.zip proofs)).map
      (fun e => ⟨⟨e.1, e.2.1⟩, e.2.2⟩), pubPoly)

end PVSS

section KeyPackage

variable {q : ℕ} {Pt : Type} [AddCommGroup Pt] [Module (ZMod q) Pt]

/-- `key.KeyPair`: a public/private keypair.  The Go struct also carries
the suite; here the suite's data are ambient parameters. -/
structure KeyPair (q : ℕ) (Pt : Type) where
  Public : Pt
  Secret : ZMod q
deriving DecidableEq

/-- `key.KeyPair.Gen(suite, random)`: `Secret = suite.NewKey(random)`
(passed in as the scalar the suite's key generator produced) and
`Public = suite.Point().Mul(nil, Secret) = G·Secret`.
`key.NewKeyPair(suite)` calls this with `random.Stream`. -/
def keyPairGen (g : Pt) (newKey : ZMod q) : KeyPair q Pt :=
  { Public := newKey • g, Secret := newKey }

/-- Modelled from the spec: the base64-url alphabet (spec §6.3; the
`encoding/base64` package is outside the repository). -/
def base64UrlAlphabet : List Char :=
  "ABCDEFGHIJKLMNOPQRSTUVWXYZabcdefghijklmnopqrstuvwxyz0123456789-_".toList

/-- One base64 output character. -/
def base64Char (i : ℕ) : Char := base64UrlAlphabet.getD i 'A'

/-- Modelled from the spec: `base64.RawURLEncoding.EncodeToString`,
base64 over the URL alphabet without padding (spec §6.3). -/
def base64RawURL : List ℕ → List Char
  | [] => []
  | [b0] => [base64Char (b0 >>> 2), base64Char ((b0 &&& 3) <<< 4)]
  | [b0, b1] => [base64Char (b0 >>> 2),
      base64Char (((b0 &&& 3) <<< 4) ||| (b1 >>> 4)),
      base64Char ((b1 &&& 15) <<< 2)]
  | b0 :: b1 :: b2 :: rest =>
    base64Char (b0 >>> 2) ::
      base64Char (((b0 &&& 3) <<< 4) ||| (b1 >>> 4)) ::
      base64Char (((b1 &&& 15) <<< 2) ||| (b2 >>> 6)) ::
      base64Char (b2 &&& 63) :: base64RawURL rest

/-- `key.KeyPair.PubId()`: marshal the public key (discarding the error
of `MarshalBinary`, whose outcome is the pair `(buffer, error flag)`),
hash the buffer with `kyber.Sum`, and base64-url encode the digest.  The
marshalling and the hash are the suite's and are passed as functions. -/
def PubId (marshal : Pt → List ℕ × Option Unit)
    (hashSum : List ℕ → List ℕ) (kp : KeyPair q Pt) : List Char :=
  base64RawURL (hashSum (marshal kp.Public).1)

end KeyPackage

/-- The clamping of `suiteEd25519.NewKey` (edwards25519 suite source):
`scalar[0] &= 0xf8; scalar[31] &= 0x3f; scalar[31] |= 0x40` applied to
the SHA-512 digest, bytes as naturals. -/
def newKeyClamp (scalar : List ℕ) : List ℕ :=
  let s1 := scalar.set 0 ((scalar.getD 0 0) &&& 0xf8)
  s1.set 31 (((s1.getD 31 0) &&& 0x3f) ||| 0x40)

/-- `suiteEd25519.NewKey(stream)` (edwards25519 suite source), up to the
scalar decoding: hash the 32 non-zero random bytes `buffer` with SHA-512
(the hash function is a parameter, the repository uses `crypto/sha512`),
clamp bytes 0 and 31, and keep the 32 bytes handed to `SetBytes`. -/
def newKeyBytes (sha512fn : List ℕ → List ℕ) (buffer : List ℕ) : List ℕ :=
  (newKeyClamp (sha512fn buffer)).take 32

section ElGamal

variable {q : ℕ} {Pt : Type} [AddCommGroup Pt] [Module (ZMod q) Pt]

/-- `examples.ElGamalEncrypt(group, pubkey, message)` (enc_test.go):
embed the message into a point `M` with `Point().Pick` (the group's
`Pick` at the stream in use is the parameter `pick`, returning the point
and the remainder), draw the ephemeral `k`, and return
`(K, C, remainder) = (k·G, k·pubkey + M, remainder)`. -/
def ElGamalEncrypt (g : Pt) (pick : List ℕ → Pt × List ℕ) (pubkey : Pt)
    (message : List ℕ) (k : ZMod q) : Pt × Pt × List ℕ :=
  let M := (pick message).1
  let remainder := (pick message).2
  let K := k • g
  let S := k • pubkey
  (K, S + M, remainder)

/-- `examples.ElGamalDecrypt(group, prikey, K, C)` (enc_test.go):
recompute the shared secret `S = prikey·K`, unblind `M = C - S`, and
extract the embedded data with `Point.Data` (the group's `Data` is the
parameter `dataFn`, failing with the group's error). -/
def ElGamalDecrypt (dataFn : Pt → Except Unit (List ℕ)) (prikey : ZMod q)
    (K C : Pt) : Except Unit (List ℕ) :=
  let S := prikey • K
  let M := C - S
  dataFn M

end ElGamal

/-! Concrete instances over the suite `q = 5`, `Pt = ZMod 5` (the scalar
field acting on itself), used by counterexamples and witnesses. -/

/-- A concrete Fiat–Shamir hash-to-scalar over `ZMod 5` points. -/
def cHash : ZMod 5 → ZMod 5 → ZMod 5 := fun a b => a + b

/-- A concrete encrypted share (point `1`). -/
def cEnc : PubVerShare 5 (ZMod 5) := ⟨⟨1, 1⟩, ⟨0, 0, 0, 0⟩⟩

/-- A concrete decrypted share for `cEnc` under trustee secret `2`,
public key `2`, base `1`: point `3`, with the honest decryption proof
for ephemeral `1` (challenge `4 = cHash 1 3`, response `3 = 1 - 4·2`). -/
def cDec : PubVerShare 5 (ZMod 5) := ⟨⟨1, 3⟩, ⟨4, 3, 1, 3⟩⟩

/-- A concrete encrypted share passing `VerifyEncShare` with `cHash`,
bases `H = 1`, `X = 1`, commitment `sH = 0` and point `0`: the proof
`(c, r) = (2, 1)` recomputes `vG' = vH' = 1` and `cHash 1 1 = 2`. -/
def cEncOk : PubVerShare 5 (ZMod 5) := ⟨⟨1, 0⟩, ⟨2, 1, 0, 0⟩⟩

/-- A concrete `Point().Pick` over `ZMod 5`: embed into point `3`,
leaving everything after the first byte unembedded. -/
def cPick : List ℕ → ZMod 5 × List ℕ := fun m => (3, m.drop 1)

/-- A concrete `Point.Data` over `ZMod 5` matching `cPick`. -/
def cData : ZMod 5 → Except Unit (List ℕ) := fun p =>
  if p = 3 then .ok [7] else .error ()

/-- A concrete always-failing `MarshalBinary`: it produces a buffer and
reports an error. -/
def cMarshalFail : ZMod 5 → List ℕ × Option Unit := fun _ => ([1, 2], some ())

/-- A concrete suite hash over byte buffers. -/
def cHashSum : List ℕ → List ℕ := fun l => 9 :: l

/-- A concrete stand-in for the SHA-512 digest function: a constant
64-byte output. -/
def cSha512 : List ℕ → List ℕ := fun _ => List.replicate 64 255

/-- A concrete Fiat–Shamir hash-to-scalar over `ZMod 2` points. -/
def cHash2 : ZMod 2 → ZMod 2 → ZMod 2 := fun a b => a + b

/-- A concrete constant-zero scalar stream over `ZMod 2`. -/
def cZero2 : ℕ → ZMod 2 := fun _ => 0

section Theorems

variable {q : ℕ} {Pt : Type} [AddCommGroup Pt] [Module (ZMod q) Pt]

/-- C2 (counterexample): at the concrete suite over `ZMod 5`, with the
decrypted share `cDec` honestly proving decryption of `cEnc` under
trustee key `2`, `VerifyDecShare` does not agree with a DLEQ
verification called with bases `(G, X)` and DH points
`(decShare.S.V, encShare.S.V)`: the code accepts while the claimed
argument order rejects. -/
theorem verifyDecShare_claimed_order_false :
    ¬ (VerifyDecShare cHash (1 : ZMod 5) 2 cEnc cDec =
      if dleqVerify cHash (1 : ZMod 5) 2 cDec.S.V cEnc.S.V cDec.P then none
      else some PvssError.DecVerification) := by decide

/-- C2 (amended): `VerifyDecShare(suite, G, X, encShare, decShare)`
verifies the decryption proof by invoking the DLEQ verification with the
arguments `(G, decShare.S.V, X, encShare.S.V)` in that order, i.e. with
bases `(G, decShare.S.V)` and DH points `(X, encShare.S.V)`, and turns a
failing verification into `DecVerification`. -/
theorem verifyDecShare_call_order (hash : Pt → Pt → ZMod q) (G X : Pt)
    (encShare decShare : PubVerShare q Pt) :
    VerifyDecShare hash G X encShare decShare =
      if dleqVerify hash G decShare.S.V X encShare.S.V decShare.P then none
      else some PvssError.DecVerification := rfl

/-- C3: `DecShare` verifies the encryption proof first; when it is
invalid it returns the `EncVerification` error (and no share), and
otherwise it returns a share with the index of the encrypted share and
the point `Inv(x) · encShare.S.V`. -/
theorem decShare_verifies_first (hash : Pt → Pt → ZMod q) (G H X sH : Pt)
    (x : ZMod q) (encShare : PubVerShare q Pt) (w : ZMod q) :
    (VerifyEncShare hash H X sH encShare ≠ none →
      DecShare hash G H X sH x encShare w = .error .EncVerification) ∧
    (VerifyEncShare hash H X sH encShare = none →
      ∃ ds, DecShare hash G H X sH x encShare w = .ok ds ∧
        ds.S.I = encShare.S.I ∧ ds.S.V = x⁻¹ • encShare.S.V) := by
  constructor
  · intro h
    cases hv : VerifyEncShare hash H X sH encShare with
    | none => exact absurd hv h
    | some e =>
      have he : e = .EncVerification := by
        unfold VerifyEncShare at hv
        split at hv
        · exact absurd hv (by simp)
        · exact (Option.some_inj.mp hv).symm
      subst he
      simp [DecShare, hv]
  · intro h
    refine ⟨⟨⟨encShare.S.I, x⁻¹ • encShare.S.V⟩,
      (NewDLEQProof hash G (x⁻¹ • encShare.S.V) x w).1⟩, ?_, rfl, rfl⟩
    simp [DecShare, h]

/-- C3 (witness): at the concrete suite over `ZMod 5`, the share
`cEncOk` passes encrypted-share verification and `DecShare` decrypts
it. -/
theorem decShare_verifies_first_witness :
    VerifyEncShare cHash (1 : ZMod 5) 1 0 cEncOk = none ∧
    ∃ ds, DecShare cHash (1 : ZMod 5) 1 1 0 2 cEncOk 1 = .ok ds ∧
      ds.S.I = cEncOk.S.I ∧ ds.S.V = (2 : ZMod 5)⁻¹ • cEncOk.S.V :=
  ⟨by decide, (decShare_verifies_first cHash 1 1 1 0 2 cEncOk 1).2 (by decide)⟩

/-- C6: every batch function whose parallel input slices disagree in
length returns the `DifferentLengths` error together with empty result
slices. -/
theorem batch_mismatched_lengths (hash : Pt → Pt → ZMod q) (G H : Pt)
    (X sH : List Pt) (encShares decShares : List (PubVerShare q Pt))
    (x : ZMod q) (w : ℕ → ZMod q) :
    (¬(X.length = sH.length ∧ sH.length = encShares.length) →
      VerifyEncShareBatch hash H X sH encShares =
        ([], [], some .DifferentLengths) ∧
      DecShareBatch hash G H X sH x encShares w =
        ([], [], [], some .DifferentLengths)) ∧
    (¬(X.length = encShares.length ∧ encShares.length = decShares.length) →
      VerifyDecShareBatch hash G X encShares decShares =
        ([], some .DifferentLengths)) := by
  refine ⟨fun h => ⟨?_, ?_⟩, fun h => ?_⟩
  · simp [VerifyEncShareBatch, h]
  · simp [DecShareBatch, h]
  · simp [VerifyDecShareBatch, h]

/-- C6 (witness): at the concrete suite over `ZMod 5`, inputs of lengths
2, 1 and 0 make every batch function return `DifferentLengths` and
empty slices. -/
theorem batch_mismatched_lengths_witness :
    (VerifyEncShareBatch cHash (1 : ZMod 5) [1, 1] [1] [] =
      ([], [], some .DifferentLengths) ∧
     DecShareBatch cHash (1 : ZMod 5) 1 [1, 1] [1] 2 [] (fun _ => 1) =
      ([], [], [], some .DifferentLengths)) ∧
    VerifyDecShareBatch cHash (1 : ZMod 5) [1, 1] [cEnc] [cDec] =
      ([], some .DifferentLengths) :=
  ⟨(batch_mismatched_lengths cHash 1 1 [1, 1] [1] [] [] 2 (fun _ => 1)).1
      (by decide),
   (batch_mismatched_lengths cHash 1 1 [1, 1] [1] [cEnc] [cDec] 2
      (fun _ => 1)).2 (by decide)⟩

/-- C5: `RecoverSecret` returns `DifferentLengths` on mismatched input
lengths without attempting reconstruction; with matching lengths it
returns `TooFewShares` when fewer than `t` decrypted shares pass
decrypted-share verification, and otherwise the point recovered from the
valid subset. -/
theorem recoverSecret_cases (hash : Pt → Pt → ZMod q) (G : Pt)
    (X : List Pt) (encShares decShares : List (PubVerShare q Pt))
    (t n : ℕ) :
    (¬(X.length = encShares.length ∧ encShares.length = decShares.length) →
      RecoverSecret hash G X encShares decShares t n =
        .error .DifferentLengths) ∧
    ((X.length = encShares.length ∧ encShares.length = decShares.length) →
      ((verifyDecFilter hash G (X.zip (encShares.zip decShares))).length < t →
        RecoverSecret hash G X encShares decShares t n =
          .error .TooFewShares) ∧
      (¬((verifyDecFilter hash G (X.zip (encShares.zip decShares))).length < t) →
        RecoverSecret hash G X encShares decShares t n =
          RecoverCommit (q := q)
            ((verifyDecFilter hash G (X.zip (encShares.zip decShares))).map
              (·.S)) t n)) := by
  refine ⟨fun h => ?_, fun h => ⟨fun hlt => ?_, fun hge => ?_⟩⟩
  · simp [RecoverSecret, VerifyDecShareBatch, h]
  · simp [RecoverSecret, VerifyDecShareBatch, h, hlt]
  · simp [RecoverSecret, VerifyDecShareBatch, h, hge]

/-- C5 (witness): at the concrete suite over `ZMod 5`, mismatched
lengths give `DifferentLengths`, and one valid share against threshold 5
gives `TooFewShares`. -/
theorem recoverSecret_cases_witness :
    RecoverSecret cHash (1 : ZMod 5) [2, 2] [cEnc] [cDec] 1 3 =
      .error .DifferentLengths ∧
    RecoverSecret cHash (1 : ZMod 5) [2] [cEnc] [cDec] 5 5 =
      .error .TooFewShares :=
  ⟨(recoverSecret_cases cHash 1 [2, 2] [cEnc] [cDec] 1 3).1 (by decide),
   ((recoverSecret_cases cHash 1 [2] [cEnc] [cDec] 5 5).2 (by decide)).1
     (by decide)⟩

/-- C8: a keypair produced by `Gen` (and hence by `NewKeyPair`) has
`Public = G · Secret`; `PubId` is the base64-url no-padding encoding of
the hash of the marshalling of the public key, and repeated calls return
the same string. -/
theorem keyPair_identity (g : Pt) (k : ZMod q)
    (marshal : Pt → List ℕ × Option Unit) (hashSum : List ℕ → List ℕ)
    (kp : KeyPair q Pt) :
    (keyPairGen g k).Public = (keyPairGen g k).Secret • g ∧
    PubId marshal hashSum kp =
      base64RawURL (hashSum (marshal kp.Public).1) ∧
    PubId marshal hashSum kp = PubId marshal hashSum kp :=
  ⟨rfl, rfl, rfl⟩

omit [AddCommGroup Pt] [Module (ZMod q) Pt] in
/-- C10: `PubId` discards the error of `MarshalBinary`: even when
marshalling reports failure it still returns the base64 encoding of the
hash of the produced buffer. -/
theorem pubId_discards_marshal_error
    (marshal : Pt → List ℕ × Option Unit) (hashSum : List ℕ → List ℕ)
    (kp : KeyPair q Pt) (_h : (marshal kp.Public).2 = some ()) :
    PubId marshal hashSum kp =
      base64RawURL (hashSum (marshal kp.Public).1) := rfl

/-- C10 (witness): with the always-failing marshalling over `ZMod 5`,
`PubId` still returns the encoding of the hash of the buffer. -/
theorem pubId_discards_marshal_error_witness :
    (cMarshalFail ((⟨0, 0⟩ : KeyPair 5 (ZMod 5)).Public)).2 = some () ∧
    PubId cMarshalFail cHashSum (⟨0, 0⟩ : KeyPair 5 (ZMod 5)) =
      base64RawURL (cHashSum (cMarshalFail ((⟨0, 0⟩ : KeyPair 5 (ZMod 5)).Public)).1) :=
  ⟨by decide,
   pubId_discards_marshal_error cMarshalFail cHashSum ⟨0, 0⟩ (by decide)⟩

/-- C9: ElGamal decryption with the matching private key recovers
exactly the message prefix that `Point.Pick` embedded: whenever the
group contract gives `Data (Pick m) = m.take nn`, decrypting the
ciphertext of `ElGamalEncrypt` returns `m.take nn`. -/
theorem elGamal_roundtrip (g : Pt) (pick : List ℕ → Pt × List ℕ)
    (dataFn : Pt → Except Unit (List ℕ)) (a k : ZMod q) (m : List ℕ)
    (nn : ℕ) (hdata : dataFn (pick m).1 = .ok (m.take nn)) :
    ElGamalDecrypt dataFn a (ElGamalEncrypt g pick (a • g) m k).1
      (ElGamalEncrypt g pick (a • g) m k).2.1 = .ok (m.take nn) := by
  unfold ElGamalEncrypt ElGamalDecrypt
  have hc : a • (k • g) = k • (a • g) := by
    rw [smul_smul, smul_smul, mul_comm]
  simp only [hc, add_sub_cancel_left]
  exact hdata

/-- C9 (witness): at the concrete suite over `ZMod 5` with `cPick` and
`cData`, encrypting `[7]` under the key of secret `2` and decrypting
returns the embedded prefix `[7]`. -/
theorem elGamal_roundtrip_witness :
    cData (cPick [7]).1 = .ok ([7].take 1) ∧
    ElGamalDecrypt cData (2 : ZMod 5)
      (ElGamalEncrypt (1 : ZMod 5) cPick ((2 : ZMod 5) • (1 : ZMod 5)) [7]
        (3 : ZMod 5)).1
      (ElGamalEncrypt (1 : ZMod 5) cPick ((2 : ZMod 5) • (1 : ZMod 5)) [7]
        (3 : ZMod 5)).2.1 = .ok ([7].take 1) :=
  ⟨by rfl, elGamal_roundtrip 1 cPick cData (2 : ZMod 5) 3 [7] 1 (by rfl)⟩

set_option maxRecDepth 10000 in
/-- For any byte, masking to the low six bits and setting bit 6 yields a
value whose two top bits are exactly `0x40`. -/
theorem clamp_high_bits : ∀ b < 256, ((b &&& 0x3f) ||| 0x40) &&& 0xc0 = 0x40 := by
  decide

/-- C7: for every hash function and input buffer whose digest is 64
bytes, `NewKey`'s value handed to `SetBytes` is 32 bytes long, equals
the clamping of the first 32 digest bytes, and satisfies
`byte0 &&& 0xf8 = byte0` and `byte31 &&& 0xc0 = 0x40`. -/
theorem newKey_clamping (sha512fn : List ℕ → List ℕ) (buffer : List ℕ)
    (hlen : (sha512fn buffer).length = 64)
    (hbytes : ∀ b ∈ sha512fn buffer, b < 256) :
    (newKeyBytes sha512fn buffer).length = 32 ∧
    newKeyBytes sha512fn buffer = newKeyClamp ((sha512fn buffer).take 32) ∧
    (newKeyBytes sha512fn buffer).getD 0 0 &&& 0xf8 =
      (newKeyBytes sha512fn buffer).getD 0 0 ∧
    (newKeyBytes sha512fn buffer).getD 31 0 &&& 0xc0 = 0x40 := by
  set l := sha512fn buffer with hldef
  set a := l.getD 0 0 &&& 0xf8 with hadef
  set b := (l.getD 31 0 &&& 0x3f) ||| 0x40 with hbdef
  have hset31 : ∀ (l' : List ℕ), (l'.set 0 a).getD 31 0 = l'.getD 31 0 := by
    intro l'
    simp [List.getD_eq_getElem?_getD,
      List.getElem?_set_ne (by decide : (0 : ℕ) ≠ 31)]
  have hclamp : newKeyClamp l = (l.set 0 a).set 31 b := by
    rw [newKeyClamp, hset31 l]
  have htake0 : (l.take 32).getD 0 0 = l.getD 0 0 := by
    simp [List.getD_eq_getElem?_getD, List.getElem?_take]
  have htake31 : (l.take 32).getD 31 0 = l.getD 31 0 := by
    simp [List.getD_eq_getElem?_getD, List.getElem?_take]
  have hkey : newKeyBytes sha512fn buffer = ((l.take 32).set 0 a).set 31 b := by
    rw [newKeyBytes, ← hldef, hclamp, List.set_take, List.set_take]
  have hlen32 : (l.take 32).length = 32 := by
    rw [List.length_take, hlen]
    decide
  have hgd0 : (((l.take 32).set 0 a).set 31 b).getD 0 0 = a := by
    rw [List.getD_eq_getElem?_getD,
      List.getElem?_set_ne (by decide : (31 : ℕ) ≠ 0),
      List.getElem?_set_self (by rw [hlen32]; decide)]
    rfl
  have hgd31 : (((l.take 32).set 0 a).set 31 b).getD 31 0 = b := by
    rw [List.getD_eq_getElem?_getD,
      List.getElem?_set_self (by rw [List.length_set, hlen32]; decide)]
    rfl
  refine ⟨?_, ?_, ?_, ?_⟩
  · rw [hkey, List.length_set, List.length_set, hlen32]
  · rw [hkey, newKeyClamp, htake0, ← hadef, hset31, htake31, ← hbdef]
  · rw [hkey, hgd0, hadef, Nat.and_assoc]
    norm_num
  · rw [hkey, hgd31, hbdef]
    refine clamp_high_bits _ ?_
    have h31lt : 31 < l.length := by rw [hlen]; decide
    have h31 : l.getD 31 0 = l[31] := by
      rw [List.getD_eq_getElem?_getD, List.getElem?_eq_getElem h31lt]
      rfl
    rw [h31]
    exact hbytes _ (List.getElem_mem h31lt)

/-- C7 (witness): the constant digest `cSha512` is 64 bytes of values
below 256, and the clamped key satisfies the clamping pattern. -/
theorem newKey_clamping_witness :
    (cSha512 []).length = 64 ∧ (∀ b ∈ cSha512 [], b < 256) ∧
    ((newKeyBytes cSha512 []).length = 32 ∧
     newKeyBytes cSha512 [] = newKeyClamp ((cSha512 []).take 32) ∧
     (newKeyBytes cSha512 []).getD 0 0 &&& 0xf8 =
       (newKeyBytes cSha512 []).getD 0 0 ∧
     (newKeyBytes cSha512 []).getD 31 0 &&& 0xc0 = 0x40) :=
  ⟨by decide, by decide, newKey_clamping cSha512 [] (by decide) (by decide)⟩

/-- Projection of the zipped batch input to the (key, encrypted share)
pairs: when the first two inputs have equal lengths the projection is
the zip of keys and shares. -/
theorem zip3_proj13 {α β γ : Type} :
    ∀ (X : List α) (sH : List β) (E : List γ), X.length = sH.length →
      (X.zip (sH.zip E)).map (fun z => (z.1, z.2.2)) = X.zip E
  | [], [], _, _ => rfl
  | [], _ :: _, _, h => by simp at h
  | _ :: _, [], _, h => by simp at h
  | _ :: Xs, _ :: sHs, [], _ => by simp
  | x :: Xs, s :: sHs, e :: Es, h => by
    have h' : Xs.length = sHs.length := by simpa using h
    simpa using zip3_proj13 Xs sHs Es h'

/-- Projection of the zipped batch input to the decrypted shares: with
equal lengths it returns the decrypted-share input. -/
theorem zip3_proj3 {α β γ : Type} :
    ∀ (X : List α) (E : List β) (D : List γ),
      X.length = E.length → E.length = D.length →
      (X.zip (E.zip D)).map (fun z => z.2.2) = D
  | [], [], [], _, _ => rfl
  | [], _, _ :: _, h1, h2 => by simp at h1 h2; omega
  | [], _ :: _, _, h1, _ => by simp at h1
  | _ :: _, [], _, h1, _ => by simp at h1
  | _ :: _, _ :: _, [], _, h2 => by simp at h2
  | x :: Xs, e :: Es, d :: Ds, h1, h2 => by
    have h1' : Xs.length = Es.length := by simpa using h1
    have h2' : Es.length = Ds.length := by simpa using h2
    simpa using zip3_proj3 Xs Es Ds h1' h2'

/-- The filtering loop of `VerifyEncShareBatch` keeps an order-preserving
subsequence of its zipped input, returns its two projections, and every
kept triple passes single-share verification. -/
theorem verifyEncFilter_spec {q : ℕ} {Pt : Type} [AddCommGroup Pt]
    [Module (ZMod q) Pt] (hash : Pt → Pt → ZMod q) (H : Pt)
    (l : List (Pt × Pt × PubVerShare q Pt)) :
    ∃ sub : List (Pt × Pt × PubVerShare q Pt), sub.Sublist l ∧
      verifyEncFilter hash H l = (sub.map (·.1), sub.map (·.2.2)) ∧
      ∀ z ∈ sub, VerifyEncShare hash H z.1 z.2.1 z.2.2 = none := by
  induction l with
  | nil => exact ⟨[], .slnil, rfl, by simp⟩
  | cons z rest ih =>
    obtain ⟨sub, hs, heq, hall⟩ := ih
    obtain ⟨x, sh, e⟩ := z
    by_cases hz : VerifyEncShare hash H x sh e = none
    · refine ⟨(x, sh, e) :: sub, hs.cons₂ _, ?_, ?_⟩
      · simp [verifyEncFilter, hz, heq]
      · intro z hz'
        rcases List.mem_cons.mp hz' with h | h
        · subst h; exact hz
        · exact hall z h
    · exact ⟨sub, hs.cons _, by simp [verifyEncFilter, hz, heq], hall⟩

/-- The filtering loop of `DecShareBatch` keeps an order-preserving
subsequence of its numbered zipped input together with the list of
decryption results, pairwise produced by a successful `DecShare`. -/
theorem decShareFilter_spec {q : ℕ} {Pt : Type} [AddCommGroup Pt]
    [Module (ZMod q) Pt] (hash : Pt → Pt → ZMod q) (G H : Pt) (x : ZMod q)
    (w : ℕ → ZMod q) (l : List (ℕ × Pt × Pt × PubVerShare q Pt)) :
    ∃ sub : List (ℕ × Pt × Pt × PubVerShare q Pt),
      ∃ D : List (PubVerShare q Pt), sub.Sublist l ∧
      decShareFilter hash G H x w l =
        (sub.map (·.2.1), sub.map (·.2.2.2), D) ∧
      D.length = sub.length ∧
      ∀ z ∈ sub.zip D,
        DecShare hash G H z.1.2.1 z.1.2.2.1 x z.1.2.2.2 (w z.1.1) =
          .ok z.2 := by
  induction l with
  | nil => exact ⟨[], [], .slnil, rfl, rfl, by simp⟩
  | cons z rest ih =>
    obtain ⟨sub, D, hs, heq, hlen, hall⟩ := ih
    obtain ⟨i, xi, sh, e⟩ := z
    cases hz : DecShare hash G H xi sh x e (w i) with
    | ok ds =>
      refine ⟨(i, xi, sh, e) :: sub, ds :: D, hs.cons₂ _, ?_, ?_, ?_⟩
      · simp [decShareFilter, hz, heq]
      · simp [hlen]
      · intro z hz'
        rcases List.mem_cons.mp hz' with h | h
        · subst h; exact hz
        · exact hall z h
    | error er =>
      exact ⟨sub, D, hs.cons _, by simp [decShareFilter, hz, heq], hlen, hall⟩

/-- The filtering loop of `VerifyDecShareBatch` keeps an order-preserving
subsequence of its zipped input and returns its decrypted-share
projection, each kept triple passing single-share verification. -/
theorem verifyDecFilter_spec {q : ℕ} {Pt : Type} [AddCommGroup Pt]
    [Module (ZMod q) Pt] (hash : Pt → Pt → ZMod q) (G : Pt)
    (l : List (Pt × PubVerShare q Pt × PubVerShare q Pt)) :
    ∃ sub : List (Pt × PubVerShare q Pt × PubVerShare q Pt), sub.Sublist l ∧
      verifyDecFilter hash G l = sub.map (·.2.2) ∧
      ∀ z ∈ sub, VerifyDecShare hash G z.1 z.2.1 z.2.2 = none := by
  induction l with
  | nil => exact ⟨[], .slnil, rfl, by simp⟩
  | cons z rest ih =>
    obtain ⟨sub, hs, heq, hall⟩ := ih
    obtain ⟨x, e, d⟩ := z
    by_cases hz : VerifyDecShare hash G x e d = none
    · refine ⟨(x, e, d) :: sub, hs.cons₂ _, ?_, ?_⟩
      · simp [verifyDecFilter, hz, heq]
      · intro z hz'
        rcases List.mem_cons.mp hz' with h | h
        · subst h; exact hz
        · exact hall z h
    · exact ⟨sub, hs.cons _, by simp [verifyDecFilter, hz, heq], hall⟩

/-- C4: every batch call with equal-length parallel inputs returns
`none` for the error, parallel filtered slices of equal length that are
order-preserving subsequences of the zipped inputs and pairwise
index-aligned, and every kept entry passes the corresponding
single-share operation. -/
theorem batch_alignment (hash : Pt → Pt → ZMod q) (G H : Pt)
    (X sH : List Pt) (encShares decShares : List (PubVerShare q Pt))
    (x : ZMod q) (w : ℕ → ZMod q) :
    (X.length = sH.length ∧ sH.length = encShares.length →
      ∃ sub : List (Pt × Pt × PubVerShare q Pt),
        sub.Sublist (X.zip (sH.zip encShares)) ∧
        VerifyEncShareBatch hash H X sH encShares =
          (sub.map (·.1), sub.map (·.2.2), none) ∧
        (sub.map (·.1)).length = (sub.map (·.2.2)).length ∧
        ((sub.map (·.1)).zip (sub.map (·.2.2))).Sublist
          (X.zip encShares) ∧
        ∀ z ∈ sub, VerifyEncShare hash H z.1 z.2.1 z.2.2 = none) ∧
    (X.length = sH.length ∧ sH.length = encShares.length →
      ∃ sub : List (ℕ × Pt × Pt × PubVerShare q Pt),
        ∃ D : List (PubVerShare q Pt),
        sub.Sublist ((X.zip (sH.zip encShares)).enum) ∧
        DecShareBatch hash G H X sH x encShares w =
          (sub.map (·.2.1), sub.map (·.2.2.2), D, none) ∧
        (sub.map (·.2.1)).length = (sub.map (·.2.2.2)).length ∧
        D.length = sub.length ∧
        ((sub.map (·.2.1)).zip (sub.map (·.2.2.2))).Sublist
          (X.zip encShares) ∧
        ∀ z ∈ sub.zip D,
          DecShare hash G H z.1.2.1 z.1.2.2.1 x z.1.2.2.2 (w z.1.1) =
            .ok z.2) ∧
    (X.length = encShares.length ∧ encShares.length = decShares.length →
      ∃ sub : List (Pt × PubVerShare q Pt × PubVerShare q Pt),
        sub.Sublist (X.zip (encShares.zip decShares)) ∧
        VerifyDecShareBatch hash G X encShares decShares =
          (sub.map (·.2.2), none) ∧
        (sub.map (·.2.2)).Sublist decShares ∧
        ∀ z ∈ sub, VerifyDecShare hash G z.1 z.2.1 z.2.2 = none) := by
  refine ⟨fun h => ?_, fun h => ?_, fun h => ?_⟩
  · obtain ⟨sub, hs, heq, hall⟩ :=
      verifyEncFilter_spec hash H (X.zip (sH.zip encShares))
    refine ⟨sub, hs, ?_, by simp, ?_, hall⟩
    · rw [VerifyEncShareBatch, if_pos h, heq]
    · rw [List.zip_map']
      have := hs.map (fun z => (z.1, z.2.2))
      rwa [zip3_proj13 X sH encShares h.1] at this
  · obtain ⟨sub, D, hs, heq, hlen, hall⟩ :=
      decShareFilter_spec hash G H x w ((X.zip (sH.zip encShares)).enum)
    refine ⟨sub, D, hs, ?_, by simp, hlen, ?_, hall⟩
    · rw [DecShareBatch, if_pos h, heq]
    · rw [List.zip_map']
      have h1 := hs.map (fun z => (z.2.1, z.2.2.2))
      have h2 : ((X.zip (sH.zip encShares)).enum).map
          (fun z => (z.2.1, z.2.2.2)) = X.zip encShares := by
        have h3 : ((X.zip (sH.zip encShares)).enum).map
            (fun z => (z.2.1, z.2.2.2)) =
            ((X.zip (sH.zip encShares)).enum.map Prod.snd).map
              (fun y => (y.1, y.2.2)) := by
          rw [List.map_map]
          rfl
        rw [h3, List.enum_map_snd, zip3_proj13 X sH encShares h.1]
      rwa [h2] at h1
  · obtain ⟨sub, hs, heq, hall⟩ :=
      verifyDecFilter_spec hash G (X.zip (encShares.zip decShares))
    refine ⟨sub, hs, ?_, ?_, hall⟩
    · rw [VerifyDecShareBatch, if_pos h, heq]
    · have := hs.map (fun z => z.2.2)
      rwa [zip3_proj3 X encShares decShares h.1 h.2] at this

/-- C4 (witness): at the concrete suite over `ZMod 5` with singleton
inputs of matching lengths, all three batch functions return aligned
filtered outputs without error. -/
theorem batch_alignment_witness :
    ((1 : ℕ) = 1 ∧ (1 : ℕ) = 1) ∧
    (∃ sub : List (ZMod 5 × ZMod 5 × PubVerShare 5 (ZMod 5)),
        sub.Sublist ([(1 : ZMod 5)].zip ([(0 : ZMod 5)].zip [cEncOk])) ∧
        VerifyEncShareBatch cHash (1 : ZMod 5) [1] [0] [cEncOk] =
          (sub.map (·.1), sub.map (·.2.2), none) ∧
        (sub.map (·.1)).length = (sub.map (·.2.2)).length ∧
        ((sub.map (·.1)).zip (sub.map (·.2.2))).Sublist
          ([(1 : ZMod 5)].zip [cEncOk]) ∧
        ∀ z ∈ sub, VerifyEncShare cHash (1 : ZMod 5) z.1 z.2.1 z.2.2 = none) :=
  ⟨⟨rfl, rfl⟩,
   (batch_alignment cHash (1 : ZMod 5) 1 [1] [0] [cEncOk] [cDec] 2
      (fun _ => 1)).1 (by decide)⟩

/-- DLEQ completeness: an honest proof for secret `x` over bases
`(G, H)` verifies against the DH points `(x·G, x·H)`. -/
theorem dleq_complete (hash : Pt → Pt → ZMod q) (G H : Pt) (x v : ZMod q) :
    dleqVerify hash G H (x • G) (x • H) (NewDLEQProof hash G H x v).1 = true := by
  have key : ∀ P : Pt,
      (v - hash (v • G) (v • H) * x) • P + hash (v • G) (v • H) • (x • P) =
        v • P := by
    intro P
    rw [smul_smul, sub_smul, sub_add_cancel]
  simp only [dleqVerify, NewDLEQProof]
  have hh : hash ((v - hash (v • G) (v • H) * x) • G +
        hash (v • G) (v • H) • x • G)
      ((v - hash (v • G) (v • H) * x) • H + hash (v • G) (v • H) • x • H) =
      hash (v • G) (v • H) := by
    rw [key, key]
  simp [hh]

/-- Evaluating a committed polynomial at index `i` commits the private
evaluation: `PubPoly.Eval(i).V = p(i) · B`. -/
theorem pubPolyEval_commit (cs : List (ZMod q)) (B : Pt) (i : ℕ) :
    (pubPolyEval (q := q) (priPolyCommit cs B) i).V =
      priPolyEval cs (i : ZMod q) • B := by
  induction cs with
  | nil => simp [pubPolyEval, priPolyCommit, priPolyEval]
  | cons c cs ih =>
    simp only [pubPolyEval, priPolyCommit, List.map_cons, List.foldr_cons,
      priPolyEval] at ih ⊢
    rw [ih, smul_smul, add_smul, mul_comm]

/-- Pulling a constant point out of a sum of scalar multiples. -/
theorem sum_map_smul_const {α : Type} (l : List α) (f : α → ZMod q) (B : Pt) :
    (l.map (fun a => f a • B)).sum = (l.map f).sum • B := by
  induction l with
  | nil => simp
  | cons a l ih => simp [ih, add_smul]

/-- When every triple passes decrypted-share verification, the filtering
loop of `VerifyDecShareBatch` keeps all the decrypted shares. -/
theorem verifyDecFilter_all (hash : Pt → Pt → ZMod q) (G : Pt)
    (l : List (Pt × PubVerShare q Pt × PubVerShare q Pt))
    (h : ∀ z ∈ l, VerifyDecShare hash G z.1 z.2.1 z.2.2 = none) :
    verifyDecFilter hash G l = l.map (·.2.2) := by
  induction l with
  | nil => rfl
  | cons z rest ih =>
    obtain ⟨x, e, d⟩ := z
    have h1 : VerifyDecShare hash G x e d = none := h _ (List.mem_cons_self _ _)
    have h2 := ih (fun z hz => h z (List.mem_cons_of_mem _ hz))
    simp [verifyDecFilter, h1, h2]

omit [AddCommGroup Pt] [Module (ZMod q) Pt] in
/-- Keep-first deduplication is the identity on a list of shares whose
indices are distinct and disjoint from the seen set. -/
theorem dedupByIndexGo_eq (l : List (PubShare Pt)) :
    ∀ seen, (l.map (·.I)).Nodup → (∀ sh ∈ l, sh.I ∉ seen) →
      dedupByIndexGo l seen = l := by
  induction l with
  | nil => intro seen _ _; rfl
  | cons s rest ih =>
    intro seen hnd hdisj
    rw [dedupByIndexGo, if_neg (hdisj s (List.mem_cons_self _ _))]
    rw [List.map_cons, List.nodup_cons] at hnd
    congr 1
    refine ih _ hnd.2 ?_
    intro sh hsh
    rw [List.mem_cons]
    push_neg
    refine ⟨?_, hdisj sh (List.mem_cons_of_mem _ hsh)⟩
    intro hcon
    exact hnd.1 (hcon ▸ List.mem_map_of_mem (·.I) hsh)

omit [AddCommGroup Pt] [Module (ZMod q) Pt] in
/-- Keep-first deduplication is the identity on distinct indices. -/
theorem dedupByIndex_eq (l : List (PubShare Pt))
    (h : (l.map (·.I)).Nodup) : dedupByIndex l = l :=
  dedupByIndexGo_eq l [] h (by simp)

/-- `hornerPoly` evaluates like `priPolyEval`. -/
theorem hornerPoly_eval (cs : List (ZMod q)) (z : ZMod q) :
    (hornerPoly cs).eval z = priPolyEval cs z := by
  induction cs with
  | nil => simp [hornerPoly, priPolyEval]
  | cons c cs ih =>
    simp only [hornerPoly, priPolyEval, List.foldr_cons, Polynomial.eval_add,
      Polynomial.eval_mul, Polynomial.eval_X, Polynomial.eval_C] at ih ⊢
    rw [ih]

/-- The degree of `hornerPoly cs` is below the coefficient count. -/
theorem hornerPoly_degree (cs : List (ZMod q)) :
    (hornerPoly cs).degree < (cs.length : WithBot ℕ) := by
  induction cs with
  | nil =>
    simp only [hornerPoly, List.foldr_nil, Polynomial.degree_zero,
      List.length_nil, Nat.cast_zero]
    exact WithBot.bot_lt_coe 0
  | cons c cs ih =>
    simp only [hornerPoly, List.foldr_cons, List.length_cons, Nat.cast_succ] at ih ⊢
    refine lt_of_le_of_lt (Polynomial.degree_add_le _ _) ?_
    rw [max_lt_iff]
    constructor
    · refine lt_of_le_of_lt (Polynomial.degree_mul_le _ _) ?_
      refine lt_of_le_of_lt (add_le_add_left Polynomial.degree_X_le _) ?_
      exact WithBot.add_lt_add_right (by simp) ih
    · refine lt_of_le_of_lt Polynomial.degree_C_le ?_
      rw [← Nat.cast_succ]
      exact_mod_cast Nat.succ_pos cs.length

/-- Lagrange interpolation at zero: over a prime field, summing the
`lagrangeCoeff`-weighted evaluations of a polynomial of degree below the
number of distinct nodes recovers the constant term. -/
theorem lagrange_sum_eq [Fact (Nat.Prime q)] (cs : List (ZMod q)) (xs : List ℕ)
    (hnd : xs.Nodup)
    (hinj : ∀ a ∈ xs, ∀ b ∈ xs, (a : ZMod q) = (b : ZMod q) → a = b)
    (hdeg : cs.length ≤ xs.length) :
    (xs.map (fun i => lagrangeCoeff (q := q) xs i *
      priPolyEval cs (i : ZMod q))).sum = priPolyEval cs 0 := by
  classical
  have hvs : Set.InjOn (Nat.cast : ℕ → ZMod q) xs.toFinset := by
    intro a ha b hb hab
    exact hinj a (List.mem_toFinset.mp ha) b (List.mem_toFinset.mp hb) hab
  have hdeg' : (hornerPoly cs).degree < xs.toFinset.card := by
    rw [List.toFinset_card_of_nodup hnd]
    refine lt_of_lt_of_le (hornerPoly_degree cs) ?_
    exact_mod_cast hdeg
  have hinterp := Lagrange.eq_interpolate hvs hdeg'
  have heval := congrArg (Polynomial.eval 0) hinterp
  rw [Lagrange.interpolate_apply, Polynomial.eval_finset_sum] at heval
  have hbasis : ∀ i ∈ xs.toFinset,
      Polynomial.eval 0 (Lagrange.basis xs.toFinset (Nat.cast : ℕ → ZMod q) i) =
        lagrangeCoeff (q := q) xs i := by
    intro i hi
    rw [Lagrange.basis, Polynomial.eval_prod, lagrangeCoeff]
    have hfnd : (xs.filter (fun xj => xj ≠ i)).Nodup := hnd.filter _
    rw [← List.prod_toFinset _ hfnd]
    have hft : (xs.filter (fun xj => xj ≠ i)).toFinset = xs.toFinset.erase i := by
      rw [List.toFinset_filter]
      ext a
      simp [Finset.mem_erase, and_comm]
    rw [hft]
    refine Finset.prod_congr rfl ?_
    intro j hj
    rw [Lagrange.basisDivisor]
    simp only [Polynomial.eval_mul, Polynomial.eval_C, Polynomial.eval_sub,
      Polynomial.eval_X]
    ring
  have hterm : ∀ i ∈ xs.toFinset,
      Polynomial.eval 0 (Polynomial.C
          (Polynomial.eval ((i : ℕ) : ZMod q) (hornerPoly cs)) *
        Lagrange.basis xs.toFinset (Nat.cast : ℕ → ZMod q) i) =
      lagrangeCoeff (q := q) xs i * priPolyEval cs (i : ZMod q) := by
    intro i hi
    rw [Polynomial.eval_mul, Polynomial.eval_C, hbasis i hi, hornerPoly_eval,
      mul_comm]
  rw [Finset.sum_congr rfl hterm] at heval
  rw [← List.sum_toFinset _ hnd]
  rw [hornerPoly_eval] at heval
  exact heval.symm

/-- `EncShares` always succeeds and produces, at position `k`, the
encrypted share `(k+1, p(k+1)·X_k)` with the honest encryption proof,
together with the commitment of the polynomial under `H`. -/
theorem encShares_spec (hash : Pt → Pt → ZMod q) (h : Pt) (X : List Pt)
    (s : ZMod q) (t : ℕ) (cr er : ℕ → ZMod q) :
    EncShares hash h X s t cr er = .ok (
      (List.range X.length).map (fun k =>
        ⟨⟨k + 1, priPolyEval (NewPriPoly t s cr) ((k : ZMod q) + 1) •
            X.getD k 0⟩,
          (NewDLEQProof hash h (X.getD k 0)
            (priPolyEval (NewPriPoly t s cr) ((k : ZMod q) + 1)) (er k)).1⟩),
      priPolyCommit (NewPriPoly t s cr) h) := by
  simp only [EncShares, NewDLEQProofBatch, priPolyShares,
    List.length_replicate, List.length_map, List.length_range, and_self,
    if_true, Except.ok.injEq]
  refine Prod.ext ?_ rfl
  apply List.ext_getElem
  · simp [List.length_zip, List.enum_length]
  · intro i h1 h2
    have hi : i < X.length := by simpa using h2
    simp only [List.getElem_map, List.getElem_zip, List.getElem_enum,
      List.getElem_range, List.getElem_replicate, NewDLEQProof]
    rw [List.getD_eq_getElem X 0 hi]

omit [AddCommGroup Pt] [Module (ZMod q) Pt] in
/-- Casting naturals below `q` into `ZMod q` is injective. -/
theorem natCast_inj_of_lt {a b : ℕ} (ha : a < q) (hb : b < q)
    (h : (a : ZMod q) = (b : ZMod q)) : a = b := by
  have hv := congrArg ZMod.val h
  rwa [ZMod.val_cast_of_lt ha, ZMod.val_cast_of_lt hb] at hv

omit [AddCommGroup Pt] [Module (ZMod q) Pt] in
/-- A fresh private polynomial has exactly `t` coefficients. -/
theorem newPriPoly_length (t : ℕ) (s : ZMod q) (cr : ℕ → ZMod q)
    (ht : 1 ≤ t) : (NewPriPoly t s cr).length = t := by
  simp [NewPriPoly]
  omega

omit [AddCommGroup Pt] [Module (ZMod q) Pt] in
/-- A fresh private polynomial evaluates to the secret at zero. -/
theorem newPriPoly_eval_zero (t : ℕ) (s : ZMod q) (cr : ℕ → ZMod q) :
    priPolyEval (NewPriPoly t s cr) 0 = s := by
  simp [NewPriPoly, priPolyEval]

/-- `RecoverCommit` on exactly `t` shares with distinct indices returns
the Lagrange combination of the shares. -/
theorem recoverCommit_all (shares : List (PubShare Pt)) (t n : ℕ)
    (hnd : (shares.map (·.I)).Nodup) (hlen : shares.length = t) :
    RecoverCommit (q := q) shares t n = .ok ((shares.map (fun sh =>
      (lagrangeCoeff (shares.map (·.I)) sh.I : ZMod q) • sh.V)).sum) := by
  rw [RecoverCommit]
  rw [dedupByIndex_eq _ hnd, List.take_of_length_le (le_of_eq hlen),
    if_neg (by omega)]

/-- C1: end-to-end correctness of PVSS sharing. Dealing with `EncShares`
to trustees with public keys `x_j·G` and nonzero secrets `x_j` always
succeeds; every selected trustee can decrypt its own encrypted share
with `DecShare` (no error); and `RecoverSecret` over the `t` decrypted
shares of any `t` distinct trustees returns the point `s·G`, not an
error. -/
theorem pvss_sharing_correct [Fact (Nat.Prime q)] (hash : Pt → Pt → ZMod q)
    (g h : Pt) (s : ZMod q) (t : ℕ) (xsec : List (ZMod q)) (sel : List ℕ)
    (cr er w : ℕ → ZMod q) (ht : 1 ≤ t) (hq : xsec.length < q)
    (hndsel : sel.Nodup) (hselt : sel.length = t)
    (hmem : ∀ j ∈ sel, j < xsec.length)
    (hx : ∀ j ∈ sel, xsec.getD j 1 ≠ 0) :
    ∃ encList : List (PubVerShare q Pt), ∃ pp : Pt × List Pt,
      EncShares hash h (xsec.map (fun xv => xv • g)) s t cr er =
        .ok (encList, pp) ∧
      (∀ j ∈ sel, ∃ d : PubVerShare q Pt,
        DecShare hash g h ((xsec.map (fun xv => xv • g)).getD j 0)
          ((pubPolyEval (q := q) pp (j + 1)).V) (xsec.getD j 1)
          (encList.getD j ⟨⟨0, 0⟩, ⟨0, 0, 0, 0⟩⟩) (w j) = .ok d) ∧
      (∀ dec : ℕ → PubVerShare q Pt,
        (∀ j ∈ sel,
          DecShare hash g h ((xsec.map (fun xv => xv • g)).getD j 0)
            ((pubPolyEval (q := q) pp (j + 1)).V) (xsec.getD j 1)
            (encList.getD j ⟨⟨0, 0⟩, ⟨0, 0, 0, 0⟩⟩) (w j) = .ok (dec j)) →
        RecoverSecret hash g
          (sel.map (fun j => (xsec.map (fun xv => xv • g)).getD j 0))
          (sel.map (fun j => encList.getD j ⟨⟨0, 0⟩, ⟨0, 0, 0, 0⟩⟩))
          (sel.map dec) t xsec.length = .ok (s • g)) := by
  classical
  set X : List Pt := xsec.map (fun xv => xv • g) with hXdef
  set cs : List (ZMod q) := NewPriPoly t s cr with hcsdef
  set dfl : PubVerShare q Pt := ⟨⟨0, 0⟩, ⟨0, 0, 0, 0⟩⟩ with hdfldef
  have henc0 := encShares_spec hash h X s t cr er
  rw [← hcsdef] at henc0
  set encF : ℕ → PubVerShare q Pt := fun k =>
    ⟨⟨k + 1, priPolyEval cs ((k : ZMod q) + 1) • X.getD k 0⟩,
      (NewDLEQProof hash h (X.getD k 0)
        (priPolyEval cs ((k : ZMod q) + 1)) (er k)).1⟩ with hencFdef
  have hXlen : X.length = xsec.length := by
    rw [hXdef]; exact List.length_map _ _
  have hgetX : ∀ j ∈ sel, X.getD j 0 = xsec.getD j 1 • g := by
    intro j hj
    have hj' : j < xsec.length := hmem j hj
    rw [hXdef, List.getD_eq_getElem _ _ (by simpa using hj'),
      List.getD_eq_getElem _ _ hj', List.getElem_map]
  have hgetE : ∀ j ∈ sel,
      ((List.range X.length).map encF).getD j dfl = encF j := by
    intro j hj
    have hj' : j < ((List.range X.length).map encF).length := by
      rw [List.length_map, List.length_range, hXlen]; exact hmem j hj
    rw [List.getD_eq_getElem _ _ hj', List.getElem_map, List.getElem_range]
  have hpp : ∀ j : ℕ, (pubPolyEval (q := q) (priPolyCommit cs h) (j + 1)).V =
      priPolyEval cs ((j : ZMod q) + 1) • h := by
    intro j
    rw [pubPolyEval_commit, Nat.cast_add_one]
  have hpass : ∀ j ∈ sel, VerifyEncShare hash h (X.getD j 0)
      ((pubPolyEval (q := q) (priPolyCommit cs h) (j + 1)).V)
      (encF j) = none := by
    intro j hj
    simp only [VerifyEncShare, hencFdef, hpp j]
    rw [dleq_complete hash h (X.getD j 0)
      (priPolyEval cs ((j : ZMod q) + 1)) (er j)]
    rfl
  have hdecEq : ∀ j ∈ sel,
      DecShare hash g h (X.getD j 0)
        ((pubPolyEval (q := q) (priPolyCommit cs h) (j + 1)).V)
        (xsec.getD j 1) (encF j) (w j) =
      .ok ⟨⟨j + 1, priPolyEval cs ((j : ZMod q) + 1) • g⟩,
        (NewDLEQProof hash g (priPolyEval cs ((j : ZMod q) + 1) • g)
          (xsec.getD j 1) (w j)).1⟩ := by
    intro j hj
    have hV : (xsec.getD j 1)⁻¹ •
        (priPolyEval cs ((j : ZMod q) + 1) • X.getD j 0) =
        priPolyEval cs ((j : ZMod q) + 1) • g := by
      rw [hgetX j hj, smul_smul, smul_smul]
      congr 1
      rw [mul_comm ((xsec.getD j 1)⁻¹) (priPolyEval cs ((j : ZMod q) + 1)),
        mul_assoc, inv_mul_cancel₀ (hx j hj), mul_one]
    simp only [DecShare, hpass j hj, hencFdef]
    rw [hV]
  refine ⟨(List.range X.length).map encF, priPolyCommit cs h, henc0,
    fun j hj => ?_, fun dec hdecs => ?_⟩
  · rw [hgetE j hj]
    exact ⟨_, hdecEq j hj⟩
  · have hdeq : ∀ j ∈ sel, dec j =
        ⟨⟨j + 1, priPolyEval cs ((j : ZMod q) + 1) • g⟩,
          (NewDLEQProof hash g (priPolyEval cs ((j : ZMod q) + 1) • g)
            (xsec.getD j 1) (w j)).1⟩ := by
      intro j hj
      have h1 := hdecs j hj
      rw [hgetE j hj] at h1
      exact Except.ok.inj (h1.symm.trans (hdecEq j hj))
    have hbatch : VerifyDecShareBatch hash g
        (sel.map (fun j => X.getD j 0))
        (sel.map (fun j => ((List.range X.length).map encF).getD j dfl))
        (sel.map dec) = (sel.map dec, none) := by
      rw [VerifyDecShareBatch, if_pos (by simp)]
      rw [List.zip_map', List.zip_map']
      refine Prod.ext ?_ rfl
      rw [verifyDecFilter_all]
      · rw [List.map_map]
        rfl
      · intro z hz
        obtain ⟨j, hj, rfl⟩ := List.mem_map.mp hz
        simp only [VerifyDecShare, hdeq j hj, hgetE j hj, hencFdef,
          hgetX j hj]
        rw [show priPolyEval cs ((j : ZMod q) + 1) • (xsec.getD j 1 • g) =
            xsec.getD j 1 • (priPolyEval cs ((j : ZMod q) + 1) • g) from by
          rw [smul_smul, smul_smul, mul_comm]]
        rw [dleq_complete hash g (priPolyEval cs ((j : ZMod q) + 1) • g)
          (xsec.getD j 1) (w j)]
        rfl
    simp only [RecoverSecret, hbatch]
    rw [if_neg (by simp [hselt])]
    have hshares : (sel.map dec).map (·.S) =
        sel.map (fun j => (⟨j + 1,
          priPolyEval cs ((j : ZMod q) + 1) • g⟩ : PubShare Pt)) := by
      rw [List.map_map]
      refine List.map_congr_left ?_
      intro j hj
      show (dec j).S = _
      rw [hdeq j hj]
    rw [hshares]
    have hxs : (sel.map (fun j => (⟨j + 1,
        priPolyEval cs ((j : ZMod q) + 1) • g⟩ : PubShare Pt))).map (·.I) =
        sel.map (fun j => j + 1) := by
      rw [List.map_map]
      rfl
    have hndxs : (sel.map (fun j => j + 1)).Nodup :=
      hndsel.map (fun a b hab => by omega)
    rw [recoverCommit_all _ t _ (by rw [hxs]; exact hndxs) (by simp [hselt])]
    rw [hxs, List.map_map]
    have hstep : sel.map ((fun sh => (lagrangeCoeff (q := q)
          (sel.map (fun j => j + 1)) sh.I : ZMod q) • sh.V) ∘
        (fun j => (⟨j + 1,
          priPolyEval cs ((j : ZMod q) + 1) • g⟩ : PubShare Pt))) =
        sel.map (fun j => (lagrangeCoeff (q := q)
          (sel.map (fun j' => j' + 1)) (j + 1) *
          priPolyEval cs ((j : ZMod q) + 1)) • g) := by
      refine List.map_congr_left ?_
      intro j hj
      show (lagrangeCoeff (q := q) (sel.map (fun j => j + 1)) (j + 1)) •
        (priPolyEval cs ((j : ZMod q) + 1) • g) = _
      rw [smul_smul]
    rw [hstep, sum_map_smul_const]
    have hs0 : priPolyEval cs 0 = s := by
      rw [hcsdef]; exact newPriPoly_eval_zero t s cr
    have hinj : ∀ a : ℕ, a ∈ sel.map (fun j => j + 1) →
        ∀ b : ℕ, b ∈ sel.map (fun j => j + 1) →
        (a : ZMod q) = (b : ZMod q) → a = b := by
      intro a ha b hb hab
      obtain ⟨ja, hja, hja2⟩ := List.mem_map.mp ha
      obtain ⟨jb, hjb, hjb2⟩ := List.mem_map.mp hb
      subst hja2
      subst hjb2
      refine natCast_inj_of_lt (q := q) ?_ ?_ hab
      · have := hmem ja hja; omega
      · have := hmem jb hjb; omega
    have hdeg : cs.length ≤ (sel.map (fun j => j + 1)).length := by
      rw [hcsdef, newPriPoly_length t s cr ht, List.length_map, hselt]
    have hsum := lagrange_sum_eq (q := q) cs (sel.map (fun j => j + 1))
      hndxs hinj hdeg
    rw [List.map_map, hs0] at hsum
    rw [show sel.map ((fun i => lagrangeCoeff (q := q)
          (sel.map (fun j => j + 1)) i * priPolyEval cs (i : ZMod q)) ∘
        (fun j => j + 1)) =
        sel.map (fun j => (lagrangeCoeff (q := q)
          (sel.map (fun j' => j' + 1)) (j + 1) *
          priPolyEval cs ((j : ZMod q) + 1))) from
      List.map_congr_left (fun j hj => by
        show lagrangeCoeff (q := q) (sel.map (fun j => j + 1)) (j + 1) *
          priPolyEval cs ((j + 1 : ℕ) : ZMod q) = _
        rw [Nat.cast_add_one])] at hsum
    rw [hsum]

/-- C1 (witness): the full pipeline over the suite `ZMod 2` with one
trustee of secret `1`, threshold `1`, secret `1`: dealing succeeds, the
trustee decrypts its share, and recovery from the decrypted share
returns `1 • 1 = s · G`. -/
theorem pvss_sharing_correct_witness :
    (1 ≤ 1 ∧ [(1 : ZMod 2)].length < 2 ∧ ([0] : List ℕ).Nodup ∧
     ([0] : List ℕ).length = 1 ∧
     (∀ j ∈ ([0] : List ℕ), j < [(1 : ZMod 2)].length) ∧
     (∀ j ∈ ([0] : List ℕ), [(1 : ZMod 2)].getD j 1 ≠ 0)) ∧
    (∃ encList : List (PubVerShare 2 (ZMod 2)),
     ∃ pp : ZMod 2 × List (ZMod 2),
      EncShares cHash2 (1 : ZMod 2)
          ([(1 : ZMod 2)].map (fun xv => xv • (1 : ZMod 2))) 1 1
          cZero2 cZero2 = .ok (encList, pp) ∧
      (∀ j ∈ ([0] : List ℕ), ∃ d : PubVerShare 2 (ZMod 2),
        DecShare cHash2 (1 : ZMod 2) 1
          (([(1 : ZMod 2)].map (fun xv => xv • (1 : ZMod 2))).getD j 0)
          ((pubPolyEval (q := 2) pp (j + 1)).V) ([(1 : ZMod 2)].getD j 1)
          (encList.getD j ⟨⟨0, 0⟩, ⟨0, 0, 0, 0⟩⟩) (cZero2 j) = .ok d) ∧
      (∀ dec : ℕ → PubVerShare 2 (ZMod 2),
        (∀ j ∈ ([0] : List ℕ),
          DecShare cHash2 (1 : ZMod 2) 1
            (([(1 : ZMod 2)].map (fun xv => xv • (1 : ZMod 2))).getD j 0)
            ((pubPolyEval (q := 2) pp (j + 1)).V) ([(1 : ZMod 2)].getD j 1)
            (encList.getD j ⟨⟨0, 0⟩, ⟨0, 0, 0, 0⟩⟩) (cZero2 j) =
              .ok (dec j)) →
        RecoverSecret cHash2 (1 : ZMod 2)
          (([0] : List ℕ).map (fun j =>
            ([(1 : ZMod 2)].map (fun xv => xv • (1 : ZMod 2))).getD j 0))
          (([0] : List ℕ).map (fun j =>
            encList.getD j ⟨⟨0, 0⟩, ⟨0, 0, 0, 0⟩⟩))
          (([0] : List ℕ).map dec) 1 [(1 : ZMod 2)].length =
          .ok ((1 : ZMod 2) • (1 : ZMod 2)))) :=
  ⟨⟨by decide, by decide, by decide, by decide, by decide, by decide⟩,
   pvss_sharing_correct cHash2 1 1 1 1 [(1 : ZMod 2)] [0] cZero2 cZero2
     cZero2 (by decide) (by decide) (by decide) (by decide) (by decide)
     (by decide)⟩

end Theorems
